import Mathlib

/-!
Verification development for the `fast_trie` crate.

The crate stores a set of symbol sequences in a prefix tree.  The core lives
in `src/node.rs` (the recursive `TrieNode`), `src/trie.rs` (the `Trie`
container with its cached `count`) and `src/iter.rs` (the explicit-stack
enumerator `TrieIter`).  Serde persistence lives in the `Deserialize`
visitors of `src/node.rs` and `src/trie.rs`.

Modelling conventions:
* `HashMap<T, TrieNode<T, H>>` is modelled as an insertion-ordered
  association list `List (T × TrieNode T)`.  `HashMap` iteration order is
  unspecified in Rust; the list order realises one concrete order
  (insertion order).  Lookup, `entry().or_insert`, and `remove` translate
  to `keyLookup`, `assocSet` (replace first binding in place, append when
  absent) and `assocErase` (drop the first binding).
* Rust `usize` arithmetic on `count` is modelled as `Nat` (the one
  subtraction `count -= 1` is guarded by a successful removal, which in
  every program-reachable state implies `count ≥ 1`).
* Mutation in place becomes explicit state passing: a Rust method
  `&mut self` returning `bool` becomes a Lean function returning the new
  value paired with the `Bool`.
-/

set_option maxHeartbeats 1000000

/-- A node of the trie, from `src/node.rs`: a children map and the
`end_of_value` terminal flag. -/
inductive TrieNode (T : Type) : Type where
  | mk (children : List (T × TrieNode T)) (end_of_value : Bool)
deriving Repr

/-- The `children` field of a `TrieNode`. -/
def TrieNode.children {T : Type} : TrieNode T → List (T × TrieNode T)
  | .mk cs _ => cs

/-- The `end_of_value` field of a `TrieNode`. -/
def TrieNode.end_of_value {T : Type} : TrieNode T → Bool
  | .mk _ b => b

/-- Rust `TrieNode::is_end_of_word` (src/node.rs): returns `end_of_value`. -/
def TrieNode.is_end_of_word {T : Type} (n : TrieNode T) : Bool :=
  n.end_of_value

/-- Rust `TrieNode::empty` (src/node.rs): empty children map,
`end_of_value = false`. -/
def TrieNode.empty {T : Type} : TrieNode T :=
  .mk [] false

/-- Rust `TrieNode::is_empty` (src/node.rs): `children.is_empty()`. -/
def TrieNode.is_empty {T : Type} (n : TrieNode T) : Bool :=
  n.children.isEmpty

/-- Rust `TrieNode::clear` (src/node.rs): `children.clear()` and
`end_of_value = false`; the mutated node is exactly the empty node. -/
def TrieNode.clear {T : Type} (_ : TrieNode T) : TrieNode T :=
  TrieNode.empty

variable {T : Type} [DecidableEq T]

/-- Association-list lookup: models `HashMap::get`. -/
def keyLookup {V : Type} (k : T) : List (T × V) → Option V
  | [] => none
  | (k', v) :: rest => if k = k' then some v else keyLookup k rest

/-- Association-list membership of a key: models `HashMap::contains_key`. -/
def keyMem {V : Type} (k : T) : List (T × V) → Bool
  | [] => false
  | (k', _) :: rest => if k = k' then true else keyMem k rest

/-- Association-list update: replace the first binding of `k` in place, or
append a fresh binding when `k` is absent.  Models writing through
`HashMap::entry(k).or_insert(..)` / `get_mut`. -/
def assocSet {V : Type} (k : T) (v : V) : List (T × V) → List (T × V)
  | [] => [(k, v)]
  | (k', v') :: rest =>
      if k = k' then (k, v) :: rest else (k', v') :: assocSet k v rest

/-- Association-list removal of the first binding of `k`: models
`HashMap::remove`. -/
def assocErase {V : Type} (k : T) : List (T × V) → List (T × V)
  | [] => []
  | (k', v') :: rest =>
      if k = k' then rest else (k', v') :: assocErase k rest

/-- Rust `TrieNode::get` (src/node.rs): `children.get(value)`. -/
def TrieNode.get (n : TrieNode T) (k : T) : Option (TrieNode T) :=
  keyLookup k n.children

/-- Rust `TrieNode::can_remove` (src/node.rs): a node can be detached from
its parent when it is not terminal and has no children. -/
def TrieNode.can_remove (n : TrieNode T) : Bool :=
  !n.end_of_value && n.is_empty

/-- Rust `TrieNode::remove_internal` (src/node.rs), with `remove_fn`
specialised to the one closure `remove_branch` passes: after the recursive
call returns, the (already updated) child for the walked symbol is checked
with `can_remove` and, if prunable, removed from the children map.  At the
end of the sequence the terminal flag is cleared and its old value is the
success result.  A missing child aborts with `false` and no change. -/
def TrieNode.remove_internal : TrieNode T → List T → TrieNode T × Bool
  | n, [] => (.mk n.children false, n.end_of_value)
  | n, k :: ks =>
      match keyLookup k n.children with
      | none => (n, false)
      | some child =>
          let r := child.remove_internal ks
          let cs :=
            if r.1.can_remove then assocErase k n.children
            else assocSet k r.1 n.children
          (.mk cs n.end_of_value, r.2)

/-- Rust `TrieNode::remove_branch` (src/node.rs): `remove_internal` with the
pruning closure. -/
def TrieNode.remove_branch (n : TrieNode T) (s : List T) : TrieNode T × Bool :=
  n.remove_internal s

/-- The `get_or_create` walk of Rust `Trie::insert` (src/trie.rs): walk the
sequence creating missing nodes (`TrieNode::get_or_create`), read the final
node's terminal flag into `is_new`, and set the flag.  Returns the updated
subtree and `is_new`. -/
def insertWalk : TrieNode T → List T → TrieNode T × Bool
  | n, [] => (.mk n.children true, !n.end_of_value)
  | n, k :: ks =>
      let child := (keyLookup k n.children).getD TrieNode.empty
      let r := insertWalk child ks
      (.mk (assocSet k r.1 n.children) n.end_of_value, r.2)

/-- The lookup walk of Rust `Trie::contains` (src/trie.rs): follow children,
return `false` as soon as a child is missing, else the final node's
`end_of_value`. -/
def containsWalk : TrieNode T → List T → Bool
  | n, [] => n.end_of_value
  | n, k :: ks =>
      match keyLookup k n.children with
      | none => false
      | some child => containsWalk child ks

/-- The `Trie` container from `src/trie.rs`: a root node plus the cached
`count` of stored values. -/
structure Trie (T : Type) where
  root : TrieNode T
  count : Nat
deriving Repr

/-- Rust `Trie::new` (src/trie.rs). -/
def Trie.new : Trie T :=
  ⟨TrieNode.empty, 0⟩

/-- Rust `Trie::len` (src/trie.rs): returns the cached `count`. -/
def Trie.len (t : Trie T) : Nat :=
  t.count

/-- Rust `Trie::is_empty` (src/trie.rs): delegates to the root node's
`is_empty`, i.e. whether the root has no children. -/
def Trie.is_empty (t : Trie T) : Bool :=
  t.root.is_empty

/-- Rust `Trie::clear` (src/trie.rs): clears the root node.  Note the
source does not touch `count`. -/
def Trie.clear (t : Trie T) : Trie T :=
  ⟨t.root.clear, t.count⟩

/-- Rust `Trie::insert` (src/trie.rs): run the `get_or_create` walk, bump
`count` exactly when the value is new, return whether it was new. -/
def Trie.insert (t : Trie T) (s : List T) : Trie T × Bool :=
  let r := insertWalk t.root s
  (⟨r.1, if r.2 then t.count + 1 else t.count⟩, r.2)

/-- Rust `Trie::remove` (src/trie.rs): delegate to the root's
`remove_branch`, decrement `count` iff it reports success. -/
def Trie.remove (t : Trie T) (s : List T) : Trie T × Bool :=
  let r := t.root.remove_branch s
  (⟨r.1, if r.2 then t.count - 1 else t.count⟩, r.2)

/-- Rust `Trie::contains` (src/trie.rs). -/
def Trie.contains (t : Trie T) (s : List T) : Bool :=
  containsWalk t.root s

/-- Tries reachable from `Trie::new` by the public mutating operations of
`src/trie.rs`: `insert`, `remove` and `clear`. -/
inductive Reachable : Trie T → Prop where
  | init : Reachable Trie.new
  | insert (t : Trie T) (s : List T) : Reachable t → Reachable (t.insert s).1
  | remove (t : Trie T) (s : List T) : Reachable t → Reachable (t.remove s).1
  | clear (t : Trie T) : Reachable t → Reachable t.clear

mutual
/-- Number of terminal nodes in a subtree, the node itself included: the
quantity the spec says `count` caches. -/
def countTerminals : TrieNode T → Nat
  | .mk cs b => (if b then 1 else 0) + countTerminalsList cs
def countTerminalsList : List (T × TrieNode T) → Nat
  | [] => 0
  | (_, c) :: rest => countTerminals c + countTerminalsList rest
end

/-- A node that may legally appear as a child after pruning: terminal, or
with at least one child (the negation of `can_remove`). -/
def nonPrunable (n : TrieNode T) : Bool :=
  n.end_of_value || !n.children.isEmpty

mutual
/-- The pruning invariant of the spec, as a predicate on a subtree: no
strict descendant of this node is simultaneously non-terminal and
childless.  The node itself is exempt (it plays the root's role). -/
def goodNode : TrieNode T → Bool
  | .mk cs _ => goodChildren cs
def goodChildren : List (T × TrieNode T) → Bool
  | [] => true
  | (_, c) :: rest => (nonPrunable c && goodNode c) && goodChildren rest
end

/-- Key uniqueness for one children list, models the `HashMap` key
invariant. -/
def keysUnique {V : Type} : List (T × V) → Bool
  | [] => true
  | (k, _) :: rest => !keyMem k rest && keysUnique rest

mutual
/-- Well-formedness of a subtree: every node's children map has unique
keys (the `HashMap` invariant the association-list model must maintain). -/
def wellFormedNode : TrieNode T → Bool
  | .mk cs _ => keysUnique cs && wellFormedChildren cs
def wellFormedChildren : List (T × TrieNode T) → Bool
  | [] => true
  | (_, c) :: rest => wellFormedNode c && wellFormedChildren rest
end

/-- State of the generic enumerator `TrieIter` from `src/iter.rs`: the
explicit stack of `(node, depth)` pairs (head of the list is the top of
the Rust `Vec`) and the reused prefix buffer.  In the source the buffer
holds `&T` references to keys in the trie; in the model it holds the
symbols themselves. -/
structure TrieIterState (T : Type) where
  stack : List (TrieNode T × Nat)
  buffer : List T
deriving Repr

/-- Rust `TrieIter::new` (src/iter.rs): stack seeded with `(root, 0)`,
empty buffer. -/
def TrieIterState.new (root : TrieNode T) : TrieIterState T :=
  ⟨[(root, 0)], []⟩

/-- The `for (key, child) in &node.children` loop in the body of
`TrieIter::next` (src/iter.rs): push each child onto the stack at
`depth + 1`, push its key onto the buffer, and as soon as a terminal child
is seen, return the whole buffer as the yielded item — the remaining
siblings of that child are not processed, because the Rust `return`
leaves the `for` loop. -/
def pushChildren : List (T × TrieNode T) → Nat → List (TrieNode T × Nat) → List T →
    List (TrieNode T × Nat) × List T × Option (List T)
  | [], _, stk, buf => (stk, buf, none)
  | (k, c) :: rest, depth, stk, buf =>
      let stk' := (c, depth + 1) :: stk
      let buf' := buf ++ [k]
      if c.end_of_value then (stk', buf', some buf')
      else pushChildren rest depth stk' buf'

/-- One call to Rust `TrieIter::next` (src/iter.rs): the
`while let Some((node, depth)) = self.stack.pop()` loop, popping a node,
truncating the buffer to its depth and running the children loop, until a
yield happens or the stack empties.  The `fuel` parameter bounds the
number of loop iterations; each iteration pops one stack entry, so any
fuel no smaller than the number of pops taken behaves like the unbounded
loop.  The yielded item models the `unsafe` transmuted borrow of
`self.buffer`: its contents at yield time. -/
def iterNext : Nat → TrieIterState T → TrieIterState T × Option (List T)
  | 0, st => (st, none)
  | fuel + 1, st =>
      match st.stack with
      | [] => (st, none)
      | (n, depth) :: stk =>
          let buf := st.buffer.take depth
          match pushChildren n.children depth stk buf with
          | (stk', buf', some y) => (⟨stk', buf'⟩, some y)
          | (stk', buf', none) => iterNext fuel ⟨stk', buf'⟩

/-- Drive the enumerator to exhaustion, collecting every yielded item (the
contents of the buffer at each yield).  `fuel` bounds both the number of
yields and the loop iterations inside each call. -/
def collectYields : Nat → TrieIterState T → List (List T)
  | 0, _ => []
  | fuel + 1, st =>
      match iterNext (fuel + 1) st with
      | (_, none) => []
      | (st', some y) => y :: collectYields fuel st'

/-- Field keys of the persisted representation.  Serde hands the visitors
arbitrary strings; the known keys `children`, `end_of_value`, `root` and
`count` get one constructor each, every other string is `kother`. -/
inductive PKey where
  | kchildren
  | kend
  | kroot
  | kcount
  | kother (tag : Nat)
deriving DecidableEq, Repr

/-- Values of the persisted representation consumed by the `Deserialize`
visitors: booleans, integers, maps keyed by symbols (here `Nat`), and
struct objects keyed by field names. -/
inductive PVal where
  | pbool (b : Bool)
  | pnat (n : Nat)
  | pmap (entries : List (Nat × PVal))
  | pobj (fields : List (PKey × PVal))

mutual
/-- Rust `TrieNode::deserialize` (src/node.rs): a node must be a struct
object, handed to `TrieNodeVisitor::visit_map`. -/
def decodeNode : PVal → Option (TrieNode Nat)
  | .pobj fields => decodeNodeFields fields none none
  | _ => none
termination_by v => sizeOf v

/-- Rust `TrieNodeVisitor::visit_map` (src/node.rs): fold over the fields;
a second `children` or `end_of_value` is a `duplicate_field` error, any
other key is an `unknown_field` error, and at the end a missing `children`
defaults to the empty map and a missing `end_of_value` to `false`
(`unwrap_or_default`).  `none` models a serde decode error. -/
def decodeNodeFields : List (PKey × PVal) → Option (List (Nat × TrieNode Nat)) →
    Option Bool → Option (TrieNode Nat)
  | [], cs?, e? => some (.mk (cs?.getD []) (e?.getD false))
  | (k, v) :: rest, cs?, e? =>
      match k with
      | .kchildren =>
          match cs? with
          | some _ => none
          | none =>
              match decodeChildren v with
              | none => none
              | some cs => decodeNodeFields rest (some cs) e?
      | .kend =>
          match e? with
          | some _ => none
          | none =>
              match v with
              | .pbool b => decodeNodeFields rest cs? (some b)
              | _ => none
      | _ => none
termination_by fs _ _ => sizeOf fs

/-- Deserialization of the `children` map (`HashMap<T, TrieNode>` via
serde): the value must be a map, each entry's value is decoded as a node
and inserted in order (a repeated key overwrites, as `HashMap::insert`
does). -/
def decodeChildren : PVal → Option (List (Nat × TrieNode Nat))
  | .pmap entries => decodeEntries entries []
  | _ => none
termination_by v => sizeOf v

/-- Sequential insertion of decoded map entries into the children map. -/
def decodeEntries : List (Nat × PVal) → List (Nat × TrieNode Nat) →
    Option (List (Nat × TrieNode Nat))
  | [], acc => some acc
  | (k, v) :: rest, acc =>
      match decodeNode v with
      | none => none
      | some nd => decodeEntries rest (assocSet k nd acc)
termination_by es _ => sizeOf es
end

/-- Rust `TrieVisitor::visit_map` (src/trie.rs): fold over the fields of
the container object; duplicate `root`/`count` and unknown keys are decode
errors, and at the end both `root` and `count` are required
(`ok_or_else(missing_field)`).  No further validation is performed: the
decoded `count` is taken as is. -/
def decodeTrieFields : List (PKey × PVal) → Option (TrieNode Nat) → Option Nat →
    Option (Trie Nat)
  | [], root?, count? =>
      match root?, count? with
      | some r, some c => some ⟨r, c⟩
      | _, _ => none
  | (k, v) :: rest, root?, count? =>
      match k with
      | .kroot =>
          match root? with
          | some _ => none
          | none =>
              match decodeNode v with
              | none => none
              | some r => decodeTrieFields rest (some r) count?
      | .kcount =>
          match count? with
          | some _ => none
          | none =>
              match v with
              | .pnat c => decodeTrieFields rest root? (some c)
              | _ => none
      | _ => none

/-- Rust `Trie::deserialize` (src/trie.rs): a container must be a struct
object, handed to `TrieVisitor::visit_map`. -/
def decodeTrie : PVal → Option (Trie Nat)
  | .pobj fields => decodeTrieFields fields none none
  | _ => none

/-- Walk a whole sequence through `get` links, `none` when some child is
missing.  This is the spec's phrasing of the `contains` walk ("follows
children; returns false as soon as a required child is missing; otherwise
returns the terminal flag of the final node reached"), used as the
reference side of the refinement statement for `Trie.contains`. -/
def walkPath : TrieNode T → List T → Option (TrieNode T)
  | n, [] => some n
  | n, k :: ks =>
      match n.get k with
      | none => none
      | some c => walkPath c ks

/-- Number of occurrences of a field key in a persisted object's field
list (0 = the field is missing, 2 or more = it is duplicated). -/
def countKey (key : PKey) (fields : List (PKey × PVal)) : Nat :=
  fields.countP (fun f => decide (f.1 = key))

/-! Basic facts about the node accessors and the association-list model. -/

omit [DecidableEq T] in
@[simp] lemma TrieNode.children_mk (cs : List (T × TrieNode T)) (b : Bool) :
    (TrieNode.mk cs b).children = cs := rfl

omit [DecidableEq T] in
@[simp] lemma TrieNode.end_of_value_mk (cs : List (T × TrieNode T)) (b : Bool) :
    (TrieNode.mk cs b).end_of_value = b := rfl

omit [DecidableEq T] in
lemma TrieNode.eta (n : TrieNode T) : TrieNode.mk n.children n.end_of_value = n := by
  cases n with
  | mk cs b => rfl

lemma keyLookup_assocSet_self {V : Type} (k : T) (v : V) (cs : List (T × V)) :
    keyLookup k (assocSet k v cs) = some v := by
  induction cs with
  | nil => simp [assocSet, keyLookup]
  | cons hd rest ih =>
      obtain ⟨k', v'⟩ := hd
      by_cases h : k = k' <;> simp [assocSet, keyLookup, h, ih]

lemma keyLookup_assocSet_ne {V : Type} (k k' : T) (v : V) (cs : List (T × V))
    (h : k' ≠ k) : keyLookup k' (assocSet k v cs) = keyLookup k' cs := by
  induction cs with
  | nil => simp [assocSet, keyLookup, h]
  | cons hd rest ih =>
      obtain ⟨k₁, v₁⟩ := hd
      by_cases h1 : k = k₁
      · subst h1
        simp [assocSet, keyLookup, h]
      · by_cases h2 : k' = k₁ <;> simp [assocSet, keyLookup, h1, h2, ih]

lemma keyLookup_assocErase_ne {V : Type} (k k' : T) (cs : List (T × V))
    (h : k' ≠ k) : keyLookup k' (assocErase k cs) = keyLookup k' cs := by
  induction cs with
  | nil => simp [assocErase]
  | cons hd rest ih =>
      obtain ⟨k₁, v₁⟩ := hd
      by_cases h1 : k = k₁
      · subst h1
        simp [assocErase, keyLookup, h]
      · by_cases h2 : k' = k₁ <;> simp [assocErase, keyLookup, h1, h2, ih]

lemma keyMem_eq_isSome {V : Type} (k : T) (cs : List (T × V)) :
    keyMem k cs = (keyLookup k cs).isSome := by
  induction cs with
  | nil => simp [keyMem, keyLookup]
  | cons hd rest ih =>
      obtain ⟨k₁, v₁⟩ := hd
      by_cases h : k = k₁ <;> simp [keyMem, keyLookup, h, ih]

lemma keyLookup_eq_none_of_not_mem {V : Type} (k : T) (cs : List (T × V))
    (h : keyMem k cs = false) : keyLookup k cs = none := by
  rw [keyMem_eq_isSome] at h
  cases hl : keyLookup k cs with
  | none => rfl
  | some v => rw [hl] at h; simp at h

lemma keyLookup_assocErase_self {V : Type} (k : T) (cs : List (T × V))
    (hu : keysUnique cs = true) : keyLookup k (assocErase k cs) = none := by
  induction cs with
  | nil => simp [assocErase, keyLookup]
  | cons hd rest ih =>
      obtain ⟨k₁, v₁⟩ := hd
      simp only [keysUnique, Bool.and_eq_true, Bool.not_eq_true'] at hu
      by_cases h : k = k₁
      · subst h
        simpa [assocErase] using keyLookup_eq_none_of_not_mem k rest hu.1
      · simp [assocErase, keyLookup, h, ih hu.2]

lemma assocSet_eq_self {V : Type} (k : T) (v : V) (cs : List (T × V))
    (h : keyLookup k cs = some v) : assocSet k v cs = cs := by
  induction cs with
  | nil => simp [keyLookup] at h
  | cons hd rest ih =>
      obtain ⟨k₁, v₁⟩ := hd
      by_cases h1 : k = k₁
      · subst h1
        simp only [keyLookup, if_pos rfl] at h
        simp only [assocSet, if_pos rfl]
        simp_all
      · simp only [keyLookup, if_neg h1] at h
        simp [assocSet, h1, ih h]

lemma assocSet_of_not_mem {V : Type} (k : T) (v : V) (cs : List (T × V))
    (h : keyLookup k cs = none) : assocSet k v cs = cs ++ [(k, v)] := by
  induction cs with
  | nil => simp [assocSet]
  | cons hd rest ih =>
      obtain ⟨k₁, v₁⟩ := hd
      by_cases h1 : k = k₁
      · subst h1; simp [keyLookup] at h
      · simp only [keyLookup, if_neg h1] at h
        simp [assocSet, h1, ih h]

lemma keyMem_assocSet_ne {V : Type} (k k' : T) (v : V) (cs : List (T × V))
    (h : k' ≠ k) : keyMem k' (assocSet k v cs) = keyMem k' cs := by
  rw [keyMem_eq_isSome, keyMem_eq_isSome, keyLookup_assocSet_ne k k' v cs h]

lemma keysUnique_assocSet {V : Type} (k : T) (v : V) (cs : List (T × V))
    (hu : keysUnique cs = true) : keysUnique (assocSet k v cs) = true := by
  induction cs with
  | nil => simp [assocSet, keysUnique, keyMem]
  | cons hd rest ih =>
      obtain ⟨k₁, v₁⟩ := hd
      simp only [keysUnique, Bool.and_eq_true] at hu
      by_cases h1 : k = k₁
      · subst h1
        simp [assocSet, keysUnique, hu.1, hu.2]
      · have hne : k₁ ≠ k := fun hh => h1 hh.symm
        simp [assocSet, h1, keysUnique, keyMem_assocSet_ne k k₁ v rest hne, hu.1,
          ih hu.2]

lemma keyMem_assocErase_imp {V : Type} (k k' : T) (cs : List (T × V))
    (h : keyMem k' (assocErase k cs) = true) : keyMem k' cs = true := by
  induction cs with
  | nil => simp [assocErase, keyMem] at h
  | cons hd rest ih =>
      obtain ⟨k₁, v₁⟩ := hd
      by_cases h1 : k = k₁
      · subst h1
        rw [assocErase, if_pos rfl] at h
        by_cases h2 : k' = k <;> simp [keyMem, h2, h]
      · simp only [assocErase, if_neg h1] at h
        by_cases h2 : k' = k₁
        · simp [keyMem, h2]
        · simp only [keyMem, if_neg h2] at h ⊢
          exact ih h

lemma keysUnique_assocErase {V : Type} (k : T) (cs : List (T × V))
    (hu : keysUnique cs = true) : keysUnique (assocErase k cs) = true := by
  induction cs with
  | nil => simp [assocErase, keysUnique]
  | cons hd rest ih =>
      obtain ⟨k₁, v₁⟩ := hd
      simp only [keysUnique, Bool.and_eq_true, Bool.not_eq_true'] at hu
      by_cases h1 : k = k₁
      · subst h1
        simp [assocErase, hu.2]
      · simp only [assocErase, if_neg h1, keysUnique, Bool.and_eq_true,
          Bool.not_eq_true']
        refine ⟨?_, ih hu.2⟩
        cases hm : keyMem k₁ (assocErase k rest) with
        | false => rfl
        | true =>
            have h3 := keyMem_assocErase_imp k k₁ rest hm
            rw [hu.1] at h3
            simp at h3

/-! Facts about the subtree predicates and the terminal count, at the level
of one children list. -/

lemma goodChildren_lookup (k : T) (c : TrieNode T) (cs : List (T × TrieNode T))
    (hg : goodChildren cs = true) (hl : keyLookup k cs = some c) :
    nonPrunable c = true ∧ goodNode c = true := by
  induction cs with
  | nil => simp [keyLookup] at hl
  | cons hd rest ih =>
      obtain ⟨k₁, c₁⟩ := hd
      simp only [goodChildren, Bool.and_eq_true] at hg
      by_cases h1 : k = k₁
      · rw [keyLookup, if_pos h1] at hl
        cases hl
        exact hg.1
      · rw [keyLookup, if_neg h1] at hl
        exact ih hg.2 hl

lemma goodChildren_assocSet (k : T) (v : TrieNode T) (cs : List (T × TrieNode T))
    (hg : goodChildren cs = true) (hv : nonPrunable v = true)
    (hgv : goodNode v = true) : goodChildren (assocSet k v cs) = true := by
  induction cs with
  | nil => simp [assocSet, goodChildren, hv, hgv]
  | cons hd rest ih =>
      obtain ⟨k₁, c₁⟩ := hd
      simp only [goodChildren, Bool.and_eq_true] at hg
      by_cases h1 : k = k₁
      · rw [assocSet, if_pos h1]
        simp [goodChildren, hv, hgv, hg.2]
      · rw [assocSet, if_neg h1]
        simp [goodChildren, hg.1, ih hg.2]

lemma goodChildren_assocErase (k : T) (cs : List (T × TrieNode T))
    (hg : goodChildren cs = true) : goodChildren (assocErase k cs) = true := by
  induction cs with
  | nil => simp [assocErase, goodChildren]
  | cons hd rest ih =>
      obtain ⟨k₁, c₁⟩ := hd
      simp only [goodChildren, Bool.and_eq_true] at hg
      by_cases h1 : k = k₁
      · rw [assocErase, if_pos h1]
        exact hg.2
      · rw [assocErase, if_neg h1]
        simp [goodChildren, hg.1, ih hg.2]

lemma wellFormedChildren_lookup (k : T) (c : TrieNode T)
    (cs : List (T × TrieNode T)) (hw : wellFormedChildren cs = true)
    (hl : keyLookup k cs = some c) : wellFormedNode c = true := by
  induction cs with
  | nil => simp [keyLookup] at hl
  | cons hd rest ih =>
      obtain ⟨k₁, c₁⟩ := hd
      simp only [wellFormedChildren, Bool.and_eq_true] at hw
      by_cases h1 : k = k₁
      · rw [keyLookup, if_pos h1] at hl
        cases hl
        exact hw.1
      · rw [keyLookup, if_neg h1] at hl
        exact ih hw.2 hl

lemma wellFormedChildren_assocSet (k : T) (v : TrieNode T)
    (cs : List (T × TrieNode T)) (hw : wellFormedChildren cs = true)
    (hv : wellFormedNode v = true) :
    wellFormedChildren (assocSet k v cs) = true := by
  induction cs with
  | nil => simp [assocSet, wellFormedChildren, hv]
  | cons hd rest ih =>
      obtain ⟨k₁, c₁⟩ := hd
      simp only [wellFormedChildren, Bool.and_eq_true] at hw
      by_cases h1 : k = k₁
      · rw [assocSet, if_pos h1]
        simp [wellFormedChildren, hv, hw.2]
      · rw [assocSet, if_neg h1]
        simp [wellFormedChildren, hw.1, ih hw.2]

lemma wellFormedChildren_assocErase (k : T) (cs : List (T × TrieNode T))
    (hw : wellFormedChildren cs = true) :
    wellFormedChildren (assocErase k cs) = true := by
  induction cs with
  | nil => simp [assocErase, wellFormedChildren]
  | cons hd rest ih =>
      obtain ⟨k₁, c₁⟩ := hd
      simp only [wellFormedChildren, Bool.and_eq_true] at hw
      by_cases h1 : k = k₁
      · rw [assocErase, if_pos h1]
        exact hw.2
      · rw [assocErase, if_neg h1]
        simp [wellFormedChildren, hw.1, ih hw.2]

lemma countTerminalsList_assocSet (k : T) (c v : TrieNode T)
    (cs : List (T × TrieNode T)) (hl : keyLookup k cs = some c) :
    countTerminalsList (assocSet k v cs) + countTerminals c
      = countTerminalsList cs + countTerminals v := by
  induction cs with
  | nil => simp [keyLookup] at hl
  | cons hd rest ih =>
      obtain ⟨k₁, c₁⟩ := hd
      by_cases h1 : k = k₁
      · rw [keyLookup, if_pos h1] at hl
        cases hl
        rw [assocSet, if_pos h1]
        simp [countTerminalsList]
        omega
      · rw [keyLookup, if_neg h1] at hl
        rw [assocSet, if_neg h1]
        simp only [countTerminalsList]
        have := ih hl
        omega

omit [DecidableEq T] in
lemma countTerminalsList_append (cs ds : List (T × TrieNode T)) :
    countTerminalsList (cs ++ ds)
      = countTerminalsList cs + countTerminalsList ds := by
  induction cs with
  | nil => simp [countTerminalsList]
  | cons hd rest ih =>
      obtain ⟨k₁, c₁⟩ := hd
      simp only [List.cons_append, countTerminalsList, List.append_eq, ih]
      omega

lemma countTerminalsList_assocErase (k : T) (c : TrieNode T)
    (cs : List (T × TrieNode T)) (hl : keyLookup k cs = some c) :
    countTerminalsList (assocErase k cs) + countTerminals c
      = countTerminalsList cs := by
  induction cs with
  | nil => simp [keyLookup] at hl
  | cons hd rest ih =>
      obtain ⟨k₁, c₁⟩ := hd
      by_cases h1 : k = k₁
      · rw [keyLookup, if_pos h1] at hl
        cases hl
        rw [assocErase, if_pos h1]
        simp [countTerminalsList]
        omega
      · rw [keyLookup, if_neg h1] at hl
        rw [assocErase, if_neg h1]
        simp only [countTerminalsList]
        have := ih hl
        omega

lemma countTerminals_le_list (k : T) (c : TrieNode T)
    (cs : List (T × TrieNode T)) (hl : keyLookup k cs = some c) :
    countTerminals c ≤ countTerminalsList cs := by
  induction cs with
  | nil => simp [keyLookup] at hl
  | cons hd rest ih =>
      obtain ⟨k₁, c₁⟩ := hd
      by_cases h1 : k = k₁
      · rw [keyLookup, if_pos h1] at hl
        cases hl
        simp only [countTerminalsList]
        omega
      · rw [keyLookup, if_neg h1] at hl
        simp only [countTerminalsList]
        have := ih hl
        omega

/-! Facts about the sequence walks: `containsWalk`, `insertWalk`,
`remove_internal`. -/

lemma containsWalk_empty (s : List T) : containsWalk (TrieNode.empty : TrieNode T) s = false := by
  cases s with
  | nil => rfl
  | cons k ks => simp [containsWalk, TrieNode.empty, keyLookup]

omit [DecidableEq T] in
lemma can_remove_iff_not_nonPrunable (n : TrieNode T) :
    n.can_remove = !nonPrunable n := by
  cases n with
  | mk cs b => simp [TrieNode.can_remove, nonPrunable, TrieNode.is_empty]

omit [DecidableEq T] in
lemma can_remove_elim (n : TrieNode T) (h : n.can_remove = true) :
    n.end_of_value = false ∧ n.children = [] := by
  cases n with
  | mk cs b =>
      simp only [TrieNode.can_remove, TrieNode.is_empty, Bool.and_eq_true,
        Bool.not_eq_true', TrieNode.end_of_value_mk, TrieNode.children_mk,
        List.isEmpty_iff] at h
      exact ⟨h.1, h.2⟩

lemma can_remove_containsWalk (n : TrieNode T) (s : List T)
    (h : n.can_remove = true) : containsWalk n s = false := by
  obtain ⟨he, hc⟩ := can_remove_elim n h
  cases s with
  | nil => simp [containsWalk, he]
  | cons k ks => simp [containsWalk, hc, keyLookup]

omit [DecidableEq T] in
lemma can_remove_countTerminals (n : TrieNode T) (h : n.can_remove = true) :
    countTerminals n = 0 := by
  obtain ⟨he, hc⟩ := can_remove_elim n h
  cases n with
  | mk cs b =>
      simp only [TrieNode.end_of_value_mk] at he
      simp only [TrieNode.children_mk] at hc
      subst he hc
      simp [countTerminals, countTerminalsList]

lemma insertWalk_isNew (s : List T) : ∀ n : TrieNode T,
    (insertWalk n s).2 = !containsWalk n s := by
  induction s with
  | nil => intro n; simp [insertWalk, containsWalk]
  | cons k ks ih =>
      intro n
      cases hl : keyLookup k n.children with
      | none =>
          simp only [insertWalk, containsWalk, hl, Option.getD_none, Option.getD_some]
          rw [ih TrieNode.empty, containsWalk_empty]
      | some child =>
          simp only [insertWalk, containsWalk, hl, Option.getD_some]
          exact ih child

lemma containsWalk_insertWalk_self (s : List T) : ∀ n : TrieNode T,
    containsWalk (insertWalk n s).1 s = true := by
  induction s with
  | nil => intro n; simp [insertWalk, containsWalk]
  | cons k ks ih =>
      intro n
      simp only [insertWalk, containsWalk, TrieNode.children_mk]
      rw [keyLookup_assocSet_self]
      exact ih _

lemma insertWalk_nonPrunable (s : List T) (n : TrieNode T) :
    nonPrunable (insertWalk n s).1 = true := by
  cases s with
  | nil => simp [insertWalk, nonPrunable]
  | cons k ks =>
      simp only [insertWalk, nonPrunable, TrieNode.children_mk]
      cases cs : n.children with
      | nil => simp [assocSet]
      | cons hd rest =>
          obtain ⟨k₁, c₁⟩ := hd
          by_cases h1 : k = k₁ <;> simp [assocSet, h1]

lemma goodNode_insertWalk (s : List T) : ∀ n : TrieNode T,
    goodNode n = true → goodNode (insertWalk n s).1 = true := by
  induction s with
  | nil =>
      intro n hg
      cases n with
      | mk cs b => simpa [insertWalk, goodNode] using hg
  | cons k ks ih =>
      intro n hg
      cases n with
      | mk cs b =>
          simp only [goodNode] at hg
          simp only [insertWalk, goodNode, TrieNode.children_mk]
          cases hl : keyLookup k cs with
          | none =>
              refine goodChildren_assocSet k _ cs hg ?_ ?_
              · exact insertWalk_nonPrunable ks TrieNode.empty
              · exact ih TrieNode.empty (by simp [TrieNode.empty, goodNode, goodChildren])
          | some child =>
              obtain ⟨_, hgc⟩ := goodChildren_lookup k child cs hg hl
              refine goodChildren_assocSet k _ cs hg ?_ ?_
              · simpa [hl] using insertWalk_nonPrunable ks child
              · simpa [hl] using ih child hgc

lemma wellFormedNode_insertWalk (s : List T) : ∀ n : TrieNode T,
    wellFormedNode n = true → wellFormedNode (insertWalk n s).1 = true := by
  induction s with
  | nil =>
      intro n hw
      cases n with
      | mk cs b => simpa [insertWalk, wellFormedNode] using hw
  | cons k ks ih =>
      intro n hw
      cases n with
      | mk cs b =>
          simp only [wellFormedNode, Bool.and_eq_true] at hw
          simp only [insertWalk, wellFormedNode, TrieNode.children_mk,
            Bool.and_eq_true]
          constructor
          · exact keysUnique_assocSet _ _ _ hw.1
          · cases hl : keyLookup k cs with
            | none =>
                refine wellFormedChildren_assocSet k _ cs hw.2 ?_
                exact ih TrieNode.empty
                  (by simp [TrieNode.empty, wellFormedNode, keysUnique, wellFormedChildren])
            | some child =>
                have hwc := wellFormedChildren_lookup k child cs hw.2 hl
                refine wellFormedChildren_assocSet k _ cs hw.2 ?_
                simpa [hl] using ih child hwc

lemma countTerminals_insertWalk (s : List T) : ∀ n : TrieNode T,
    countTerminals (insertWalk n s).1
      = countTerminals n + (if (insertWalk n s).2 then 1 else 0) := by
  induction s with
  | nil =>
      intro n
      cases n with
      | mk cs b =>
          cases b <;> simp [insertWalk, countTerminals] <;> omega
  | cons k ks ih =>
      intro n
      cases n with
      | mk cs b =>
          cases hl : keyLookup k cs with
          | none =>
              simp only [insertWalk, TrieNode.children_mk, hl, Option.getD_none,
                countTerminals, TrieNode.end_of_value_mk]
              rw [assocSet_of_not_mem k _ cs hl, countTerminalsList_append]
              have := ih TrieNode.empty
              simp [countTerminals, countTerminalsList, TrieNode.empty] at this ⊢
              omega
          | some child =>
              simp only [insertWalk, TrieNode.children_mk, hl, Option.getD_some,
                countTerminals, TrieNode.end_of_value_mk]
              have hrep := countTerminalsList_assocSet k child
                (insertWalk child ks).1 cs hl
              have := ih child
              omega

lemma remove_internal_isRemoved (s : List T) : ∀ n : TrieNode T,
    (n.remove_internal s).2 = containsWalk n s := by
  induction s with
  | nil => intro n; simp [TrieNode.remove_internal, containsWalk]
  | cons k ks ih =>
      intro n
      cases n with
      | mk cs b =>
          cases hl : keyLookup k cs with
          | none =>
              simp [TrieNode.remove_internal, containsWalk, hl]
          | some child =>
              simp only [TrieNode.remove_internal, containsWalk,
                TrieNode.children_mk, hl]
              exact ih child

lemma goodNode_remove_internal (s : List T) : ∀ n : TrieNode T,
    goodNode n = true → goodNode (n.remove_internal s).1 = true := by
  induction s with
  | nil =>
      intro n hg
      cases n with
      | mk cs b => simpa [TrieNode.remove_internal, goodNode] using hg
  | cons k ks ih =>
      intro n hg
      cases n with
      | mk cs b =>
          simp only [goodNode] at hg
          cases hl : keyLookup k cs with
          | none =>
              simpa [TrieNode.remove_internal, hl, goodNode] using hg
          | some child =>
              obtain ⟨hnp, hgc⟩ := goodChildren_lookup k child cs hg hl
              simp only [TrieNode.remove_internal, TrieNode.children_mk, hl]
              by_cases hcr : (child.remove_internal ks).1.can_remove = true
              · simp only [hcr, if_pos, goodNode]
                exact goodChildren_assocErase k cs hg
              · simp only [Bool.not_eq_true] at hcr
                simp only [hcr, Bool.false_eq_true, if_false, goodNode]
                refine goodChildren_assocSet k _ cs hg ?_ (ih child hgc)
                have := can_remove_iff_not_nonPrunable (child.remove_internal ks).1
                rw [hcr] at this
                simpa using this.symm

lemma wellFormedNode_remove_internal (s : List T) : ∀ n : TrieNode T,
    wellFormedNode n = true → wellFormedNode (n.remove_internal s).1 = true := by
  induction s with
  | nil =>
      intro n hw
      cases n with
      | mk cs b => simpa [TrieNode.remove_internal, wellFormedNode] using hw
  | cons k ks ih =>
      intro n hw
      cases n with
      | mk cs b =>
          simp only [wellFormedNode, Bool.and_eq_true] at hw
          cases hl : keyLookup k cs with
          | none =>
              simp only [TrieNode.remove_internal, TrieNode.children_mk, hl]
              simp [wellFormedNode, hw.1, hw.2]
          | some child =>
              have hwc := wellFormedChildren_lookup k child cs hw.2 hl
              simp only [TrieNode.remove_internal, TrieNode.children_mk, hl]
              by_cases hcr : (child.remove_internal ks).1.can_remove = true
              · simp only [hcr, if_pos, wellFormedNode, Bool.and_eq_true]
                exact ⟨keysUnique_assocErase k cs hw.1,
                  wellFormedChildren_assocErase k cs hw.2⟩
              · simp only [Bool.not_eq_true] at hcr
                simp only [hcr, Bool.false_eq_true, if_false, wellFormedNode,
                  Bool.and_eq_true]
                exact ⟨keysUnique_assocSet _ _ _ hw.1,
                  wellFormedChildren_assocSet k _ cs hw.2 (ih child hwc)⟩

lemma countTerminals_remove_internal (s : List T) : ∀ n : TrieNode T,
    countTerminals (n.remove_internal s).1
      + (if (n.remove_internal s).2 then 1 else 0) = countTerminals n := by
  induction s with
  | nil =>
      intro n
      cases n with
      | mk cs b =>
          cases b <;> simp [TrieNode.remove_internal, countTerminals] <;> omega
  | cons k ks ih =>
      intro n
      cases n with
      | mk cs b =>
          cases hl : keyLookup k cs with
          | none =>
              simp [TrieNode.remove_internal, hl]
          | some child =>
              simp only [TrieNode.remove_internal, TrieNode.children_mk, hl]
              by_cases hcr : (child.remove_internal ks).1.can_remove = true
              · simp only [hcr, if_pos, countTerminals, TrieNode.end_of_value_mk]
                have herase := countTerminalsList_assocErase k child cs hl
                have hzero := can_remove_countTerminals _ hcr
                have hrec := ih child
                rw [hzero] at hrec
                omega
              · simp only [Bool.not_eq_true] at hcr
                simp only [hcr, Bool.false_eq_true, if_false, countTerminals,
                  TrieNode.end_of_value_mk]
                have hset := countTerminalsList_assocSet k child
                  (child.remove_internal ks).1 cs hl
                have hrec := ih child
                omega

lemma remove_internal_of_not_contains (s : List T) : ∀ n : TrieNode T,
    goodNode n = true → containsWalk n s = false →
    n.remove_internal s = (n, false) := by
  induction s with
  | nil =>
      intro n hg hc
      cases n with
      | mk cs b =>
          simp only [containsWalk, TrieNode.end_of_value_mk] at hc
          subst hc
          rfl
  | cons k ks ih =>
      intro n hg hc
      cases n with
      | mk cs b =>
          simp only [goodNode] at hg
          cases hl : keyLookup k cs with
          | none =>
              simp [TrieNode.remove_internal, hl]
          | some child =>
              simp only [containsWalk, TrieNode.children_mk, hl] at hc
              obtain ⟨hnp, hgc⟩ := goodChildren_lookup k child cs hg hl
              have hch := ih child hgc hc
              simp only [TrieNode.remove_internal, TrieNode.children_mk, hl, hch]
              have hcr : child.can_remove = false := by
                rw [can_remove_iff_not_nonPrunable, hnp]
                rfl
              simp [hcr, assocSet_eq_self k child cs hl]

lemma containsWalk_remove_internal_self (s : List T) : ∀ n : TrieNode T,
    wellFormedNode n = true → containsWalk (n.remove_internal s).1 s = false := by
  induction s with
  | nil =>
      intro n _
      simp [TrieNode.remove_internal, containsWalk]
  | cons k ks ih =>
      intro n hw
      cases n with
      | mk cs b =>
          simp only [wellFormedNode, Bool.and_eq_true] at hw
          cases hl : keyLookup k cs with
          | none =>
              simp [TrieNode.remove_internal, containsWalk, hl]
          | some child =>
              have hwc := wellFormedChildren_lookup k child cs hw.2 hl
              simp only [TrieNode.remove_internal, TrieNode.children_mk, hl]
              by_cases hcr : (child.remove_internal ks).1.can_remove = true
              · simp only [hcr, if_pos, containsWalk, TrieNode.children_mk]
                rw [keyLookup_assocErase_self k cs hw.1]
              · simp only [Bool.not_eq_true] at hcr
                simp only [hcr, Bool.false_eq_true, if_false, containsWalk,
                  TrieNode.children_mk]
                rw [keyLookup_assocSet_self]
                exact ih child hwc

lemma containsWalk_remove_internal_frame (s : List T) : ∀ (n : TrieNode T)
    (s' : List T), wellFormedNode n = true → s' ≠ s →
    containsWalk (n.remove_internal s).1 s' = containsWalk n s' := by
  induction s with
  | nil =>
      intro n s' _ hne
      cases n with
      | mk cs b =>
          cases s' with
          | nil => exact absurd rfl hne
          | cons k' ks' => simp [TrieNode.remove_internal, containsWalk]
  | cons k ks ih =>
      intro n s' hw hne
      cases n with
      | mk cs b =>
          simp only [wellFormedNode, Bool.and_eq_true] at hw
          cases hl : keyLookup k cs with
          | none =>
              simp [TrieNode.remove_internal, hl]
          | some child =>
              have hwc := wellFormedChildren_lookup k child cs hw.2 hl
              simp only [TrieNode.remove_internal, TrieNode.children_mk, hl]
              cases s' with
              | nil =>
                  by_cases hcr : (child.remove_internal ks).1.can_remove = true
                  · simp [hcr, containsWalk]
                  · simp only [Bool.not_eq_true] at hcr
                    simp [hcr, containsWalk]
              | cons k' ks' =>
                  by_cases hk : k' = k
                  · subst hk
                    have hks : ks' ≠ ks := by
                      intro hh
                      exact hne (by rw [hh])
                    by_cases hcr : (child.remove_internal ks).1.can_remove = true
                    · simp only [hcr, if_pos, containsWalk, TrieNode.children_mk, hl]
                      rw [keyLookup_assocErase_self k' cs hw.1]
                      have h1 := ih child ks' hwc hks
                      have h2 := can_remove_containsWalk _ ks' hcr
                      rw [h2] at h1
                      simpa using h1.symm
                    · simp only [Bool.not_eq_true] at hcr
                      simp only [hcr, Bool.false_eq_true, if_false, containsWalk,
                        TrieNode.children_mk, hl]
                      rw [keyLookup_assocSet_self]
                      exact ih child ks' hwc hks
                  · by_cases hcr : (child.remove_internal ks).1.can_remove = true
                    · simp only [hcr, if_pos, containsWalk, TrieNode.children_mk]
                      rw [keyLookup_assocErase_ne k k' cs hk]
                    · simp only [Bool.not_eq_true] at hcr
                      simp only [hcr, Bool.false_eq_true, if_false, containsWalk,
                        TrieNode.children_mk]
                      rw [keyLookup_assocSet_ne k k' _ cs hk]

lemma containsWalk_one_le_countTerminals (s : List T) : ∀ n : TrieNode T,
    containsWalk n s = true → 1 ≤ countTerminals n := by
  induction s with
  | nil =>
      intro n hc
      cases n with
      | mk cs b =>
          simp only [containsWalk, TrieNode.end_of_value_mk] at hc
          subst hc
          simp [countTerminals]
  | cons k ks ih =>
      intro n hc
      cases n with
      | mk cs b =>
          cases hl : keyLookup k cs with
          | none => simp [containsWalk, hl] at hc
          | some child =>
              simp only [containsWalk, TrieNode.children_mk, hl] at hc
              have h1 := ih child hc
              have h2 := countTerminals_le_list k child cs hl
              simp only [countTerminals]
              omega

/-! The master invariant of program-reachable tries. -/

lemma wellFormedNode_empty : wellFormedNode (TrieNode.empty : TrieNode T) = true := by
  simp [TrieNode.empty, wellFormedNode, keysUnique, wellFormedChildren]

omit [DecidableEq T] in
lemma goodNode_empty : goodNode (TrieNode.empty : TrieNode T) = true := by
  simp [TrieNode.empty, goodNode, goodChildren]

omit [DecidableEq T] in
lemma countTerminals_empty : countTerminals (TrieNode.empty : TrieNode T) = 0 := by
  simp [TrieNode.empty, countTerminals, countTerminalsList]

lemma reachable_inv {t : Trie T} (h : Reachable t) :
    wellFormedNode t.root = true ∧ goodNode t.root = true
      ∧ countTerminals t.root ≤ t.count := by
  induction h with
  | init =>
      refine ⟨wellFormedNode_empty, goodNode_empty, ?_⟩
      show countTerminals TrieNode.empty ≤ 0
      rw [countTerminals_empty]
  | insert t s _ ih =>
      obtain ⟨hw, hg, hcnt⟩ := ih
      refine ⟨wellFormedNode_insertWalk s t.root hw,
        goodNode_insertWalk s t.root hg, ?_⟩
      show countTerminals (insertWalk t.root s).1
        ≤ (if (insertWalk t.root s).2 then t.count + 1 else t.count)
      have := countTerminals_insertWalk s t.root
      by_cases hb : (insertWalk t.root s).2 = true <;> simp [hb] at this ⊢ <;> omega
  | remove t s _ ih =>
      obtain ⟨hw, hg, hcnt⟩ := ih
      refine ⟨wellFormedNode_remove_internal s t.root hw,
        goodNode_remove_internal s t.root hg, ?_⟩
      show countTerminals (t.root.remove_internal s).1
        ≤ (if (t.root.remove_internal s).2 then t.count - 1 else t.count)
      have := countTerminals_remove_internal s t.root
      by_cases hb : (t.root.remove_internal s).2 = true <;> simp [hb] at this ⊢ <;> omega
  | clear t _ =>
      refine ⟨wellFormedNode_empty, goodNode_empty, ?_⟩
      show countTerminals TrieNode.empty ≤ t.count
      rw [countTerminals_empty]
      omega

lemma containsWalk_eq_walkPath (s : List T) : ∀ n : TrieNode T,
    containsWalk n s = ((walkPath n s).map TrieNode.is_end_of_word).getD false := by
  induction s with
  | nil => intro n; simp [containsWalk, walkPath, TrieNode.is_end_of_word]
  | cons k ks ih =>
      intro n
      cases hl : keyLookup k n.children with
      | none => simp [containsWalk, walkPath, TrieNode.get, hl]
      | some child =>
          simp only [containsWalk, walkPath, TrieNode.get, hl]
          exact ih child

/-! Claim theorems. -/

/-- C1 (count-synchronisation invariant) fails on the code: `Trie::clear`
(src/trie.rs) resets the root node but never resets `count`.  Starting
from the empty trie, inserting the one-symbol sequence `[0]` and then
calling `clear()` leaves a trie whose tree is the empty root (zero
terminal nodes, `contains [0]` is false) while `len()` still reports 1 —
`count` is out of sync with the tree, contradicting the claim (and the
code's own doc comments, which say `count` tracks the number of values in
the trie and that `clear` clears the trie). -/
theorem spec_c1_clear_desyncs_count :
    ((Trie.new : Trie Nat).insert [0]).1.clear.len = 1
    ∧ ((Trie.new : Trie Nat).insert [0]).1.clear.contains [0] = false
    ∧ ((Trie.new : Trie Nat).insert [0]).1.clear.root = TrieNode.empty
    ∧ countTerminals ((Trie.new : Trie Nat).insert [0]).1.clear.root = 0 := by
  refine ⟨by decide, by decide, rfl, ?_⟩
  show countTerminals (TrieNode.empty : TrieNode Nat) = 0
  exact countTerminals_empty

/-- C2 (pruning invariant): for every trie reachable from the empty trie
by the public mutating operations (any sequence of `insert` and `remove`;
`clear` is also covered), no non-root node of the tree is simultaneously
non-terminal and childless.  `goodNode` is the recursive Boolean check
that every strict descendant of the root has `terminal = true` or a
non-empty children map. -/
theorem spec_c2_pruning_invariant (t : Trie T) (h : Reachable t) :
    goodNode t.root = true :=
  (reachable_inv h).2.1

/-- Witness for C2: the invariant holds at the concrete reachable trie
obtained by inserting `[0, 1]` and then removing it again. -/
theorem spec_c2_pruning_invariant_witness :
    goodNode ((((Trie.new : Trie Nat).insert [0, 1]).1.remove [0, 1]).1).root = true :=
  spec_c2_pruning_invariant _
    (Reachable.remove _ _ (Reachable.insert _ _ Reachable.init))

/-- C5 (insert semantics): for every trie and every sequence (the empty
sequence included), `insert` returns `true` iff the walked-to node was not
already terminal (equivalently, iff the sequence was not contained),
afterwards the sequence is contained, `count` is incremented exactly when
`true` was returned, and a second identical insert returns `false` and
leaves `count` unchanged — so inserting a fresh sequence twice increases
`len()` by exactly 1 in total. -/
theorem spec_c5_insert_semantics (t : Trie T) (s : List T) :
    (t.insert s).2 = !t.contains s
    ∧ (t.insert s).1.contains s = true
    ∧ (t.insert s).1.count = (if (t.insert s).2 then t.count + 1 else t.count)
    ∧ ((t.insert s).1.insert s).2 = false
    ∧ ((t.insert s).1.insert s).1.count = (t.insert s).1.count := by
  have h1 : (t.insert s).2 = !t.contains s := insertWalk_isNew s t.root
  have h2 : (t.insert s).1.contains s = true := containsWalk_insertWalk_self s t.root
  have h4 : ((t.insert s).1.insert s).2 = false := by
    have := insertWalk_isNew s (t.insert s).1.root
    rw [show containsWalk (t.insert s).1.root s = (t.insert s).1.contains s from rfl,
      h2] at this
    simpa using this
  refine ⟨h1, h2, rfl, h4, ?_⟩
  show (if ((t.insert s).1.insert s).2 then (t.insert s).1.count + 1
    else (t.insert s).1.count) = (t.insert s).1.count
  rw [h4]
  simp

/-- C6 (contains semantics): `contains` follows children from the root and
is the terminal flag of the node reached by the whole walk, `false` when
some child on the way is missing; on the empty sequence it is the root's
terminal flag.  `walkPath` is the spec-side description of the walk; the
embedding of `Trie::contains` is a pure function, so it has no side
effects on the trie by construction. -/
theorem spec_c6_contains_semantics (t : Trie T) (s : List T) :
    t.contains s = ((walkPath t.root s).map TrieNode.is_end_of_word).getD false
    ∧ t.contains [] = t.root.is_end_of_word := by
  exact ⟨containsWalk_eq_walkPath s t.root, rfl⟩

/-- C7 (remove of a non-member is atomic): on any trie satisfying the
pruning invariant (which holds for every program-reachable trie by
`spec_c2`'s master lemma `reachable_inv`), removing a sequence that is not
contained returns `false`, leaves `len()` unchanged and leaves the whole
trie — tree and counter — exactly as it was: the deletion aborts at the
missing child (or at the non-terminal final node) and the unwind finds
nothing prunable. -/
theorem spec_c7_remove_nonmember_atomic (t : Trie T) (s : List T)
    (hg : goodNode t.root = true) (hc : t.contains s = false) :
    (t.remove s).2 = false ∧ (t.remove s).1.len = t.len ∧ (t.remove s).1 = t := by
  obtain ⟨rt, ct⟩ := t
  have h := remove_internal_of_not_contains s rt hg hc
  refine ⟨?_, ?_, ?_⟩
  · show (rt.remove_internal s).2 = false
    rw [h]
  · show (if (rt.remove_internal s).2 then ct - 1 else ct) = ct
    rw [h]
    simp
  · show (⟨(rt.remove_internal s).1,
      if (rt.remove_internal s).2 then ct - 1 else ct⟩ : Trie T) = ⟨rt, ct⟩
    rw [h]
    simp

/-- Witness for C7: removing the non-member `[0, 2]` from the concrete
trie holding only `[0, 1]` returns `false` and leaves the trie equal to
what it was. -/
theorem spec_c7_remove_nonmember_atomic_witness :
    goodNode ((Trie.new : Trie Nat).insert [0, 1]).1.root = true
    ∧ ((Trie.new : Trie Nat).insert [0, 1]).1.contains [0, 2] = false
    ∧ ((((Trie.new : Trie Nat).insert [0, 1]).1.remove [0, 2]).2 = false
        ∧ (((Trie.new : Trie Nat).insert [0, 1]).1.remove [0, 2]).1.len
            = ((Trie.new : Trie Nat).insert [0, 1]).1.len
        ∧ (((Trie.new : Trie Nat).insert [0, 1]).1.remove [0, 2]).1
            = ((Trie.new : Trie Nat).insert [0, 1]).1) := by
  have hg : goodNode ((Trie.new : Trie Nat).insert [0, 1]).1.root = true := by
    simp [Trie.insert, Trie.new, insertWalk, TrieNode.empty, keyLookup, assocSet,
      goodNode, goodChildren, nonPrunable]
  exact ⟨hg, by decide,
    spec_c7_remove_nonmember_atomic ((Trie.new : Trie Nat).insert [0, 1]).1
      [0, 2] hg (by decide)⟩

/-- C8 (remove frame property): on every program-reachable trie, removing
a contained sequence returns `true`, decreases `len()` by exactly 1, makes
the sequence not contained, and preserves the containment status of every
other sequence (in particular every other previously stored member stays
stored). -/
theorem spec_c8_remove_member_frame (t : Trie T) (s : List T)
    (h : Reachable t) (hc : t.contains s = true) :
    (t.remove s).2 = true
    ∧ (t.remove s).1.len + 1 = t.len
    ∧ (t.remove s).1.contains s = false
    ∧ ∀ s' : List T, s' ≠ s → (t.remove s).1.contains s' = t.contains s' := by
  obtain ⟨hw, _, hcnt⟩ := reachable_inv h
  have h2 : (t.root.remove_internal s).2 = true := by
    rw [remove_internal_isRemoved]
    exact hc
  have hone : 1 ≤ countTerminals t.root :=
    containsWalk_one_le_countTerminals s t.root hc
  refine ⟨h2, ?_, ?_, ?_⟩
  · show (if (t.root.remove_internal s).2 then t.count - 1 else t.count) + 1
      = t.count
    rw [h2]
    simp only [if_pos]
    omega
  · exact containsWalk_remove_internal_self s t.root hw
  · intro s' hne
    exact containsWalk_remove_internal_frame s t.root s' hw hne

/-- Witness for C8: with members `[0]` and `[0, 1]`, removing `[0]`
succeeds, drops `len()` from 2 to 1, removes `[0]` and keeps `[0, 1]`. -/
theorem spec_c8_remove_member_frame_witness :
    (((Trie.new : Trie Nat).insert [0]).1.insert [0, 1]).1.contains [0] = true
    ∧ (((((Trie.new : Trie Nat).insert [0]).1.insert [0, 1]).1.remove [0]).2 = true
        ∧ ((((Trie.new : Trie Nat).insert [0]).1.insert [0, 1]).1.remove [0]).1.len + 1
            = (((Trie.new : Trie Nat).insert [0]).1.insert [0, 1]).1.len
        ∧ ((((Trie.new : Trie Nat).insert [0]).1.insert [0, 1]).1.remove [0]).1.contains [0]
            = false)
    ∧ ((((Trie.new : Trie Nat).insert [0]).1.insert [0, 1]).1.remove [0]).1.contains [0, 1]
        = (((Trie.new : Trie Nat).insert [0]).1.insert [0, 1]).1.contains [0, 1] := by
  have hr : Reachable (((Trie.new : Trie Nat).insert [0]).1.insert [0, 1]).1 :=
    Reachable.insert _ _ (Reachable.insert _ _ Reachable.init)
  have hmain := spec_c8_remove_member_frame
    (((Trie.new : Trie Nat).insert [0]).1.insert [0, 1]).1 [0] hr (by decide)
  exact ⟨by decide, ⟨hmain.1, hmain.2.1, hmain.2.2.1⟩,
    hmain.2.2.2 [0, 1] (by decide)⟩

/-- C10 (is_empty edge case): `is_empty()` only reports whether the root
has no children, and after inserting the empty sequence into a fresh trie
the root is terminal but childless, so `is_empty()` returns `true` while
`len()` is 1 — `is_empty()` is not equivalent to `len() == 0`. -/
theorem spec_c10_is_empty_vs_len :
    (∀ t : Trie T, t.is_empty = t.root.children.isEmpty)
    ∧ ((Trie.new : Trie Nat).insert []).1.is_empty = true
    ∧ ((Trie.new : Trie Nat).insert []).1.len = 1
    ∧ decide (((Trie.new : Trie Nat).insert []).1.len = 0) = false := by
  exact ⟨fun t => rfl, by decide, by decide, by decide⟩

/-- C3 (enumeration completeness and soundness) fails on the code: the
`for` loop in `TrieIter::next` (src/iter.rs:25-51) returns from inside the
loop as soon as a terminal child is seen, so the remaining siblings of
that child are never pushed onto the stack, and since each sibling's key
has already been pushed onto the shared prefix buffer before its branch is
popped, later yields carry wrong prefixes.  On the member set
`{[0, 1], [2, 3]}` the iteration yields `[0, 3]` (not a member) and never
yields the member `[2, 3]` — the enumerator yields neither exactly nor
only the stored sequences.  (20 steps of fuel far exceed the 5 stack pops
this run takes, so the fuel does not truncate the run.) -/
theorem spec_c3_iter_yields_wrong_set :
    collectYields 20
      (TrieIterState.new (((Trie.new : Trie Nat).insert [0, 1]).1.insert [2, 3]).1.root)
      = [[0, 3], [0, 1]]
    ∧ (((Trie.new : Trie Nat).insert [0, 1]).1.insert [2, 3]).1.contains [2, 3] = true
    ∧ (((Trie.new : Trie Nat).insert [0, 1]).1.insert [2, 3]).1.contains [0, 3] = false := by
  decide

/-- C4 (yielded sequences are independent owned copies) fails on the code:
`TrieIter::next` (src/iter.rs:37-47) returns
`unsafe { transmute::<&[&T], &[T]>(&self.buffer) }`, a borrow of the
iterator's own reused scratch buffer with the iterator's lifetime, not an
owned copy.  In the model a yield is the buffer contents at yield time; on
the member set `{[0, 1], [2, 3]}` the first `next` yields the length-2
buffer `[0, 3]`, and after the second `next` the first two buffer cells
read `[0, 1]` — the memory a previously yielded slice points into has
changed, so yielded results are not independent of later iteration
steps. -/
theorem spec_c4_yield_aliases_buffer :
    (iterNext 20
      (TrieIterState.new (((Trie.new : Trie Nat).insert [0, 1]).1.insert [2, 3]).1.root)).2
      = some [0, 3]
    ∧ (iterNext 20 (iterNext 20
        (TrieIterState.new
          (((Trie.new : Trie Nat).insert [0, 1]).1.insert [2, 3]).1.root)).1).1.buffer.take 2
      = [0, 1]
    ∧ decide (([0, 1] : List Nat) = [0, 3]) = false := by
  decide

/-! Facts about the serde decode visitors. -/

lemma decodeNodeFields_unknown : ∀ (fields : List (PKey × PVal))
    (cs? : Option (List (Nat × TrieNode Nat))) (e? : Option Bool),
    (∃ kv ∈ fields, kv.1 ≠ PKey.kchildren ∧ kv.1 ≠ PKey.kend) →
    decodeNodeFields fields cs? e? = none := by
  intro fields
  induction fields with
  | nil =>
      intro cs? e? h
      simp at h
  | cons hd rest ih =>
      intro cs? e? h
      obtain ⟨k, v⟩ := hd
      obtain ⟨kv, hmem, hk1, hk2⟩ := h
      cases k with
      | kchildren =>
          have hrest : ∃ kv ∈ rest, kv.1 ≠ PKey.kchildren ∧ kv.1 ≠ PKey.kend := by
            rcases List.mem_cons.mp hmem with heq | hmem'
            · rw [heq] at hk1
              exact absurd rfl hk1
            · exact ⟨kv, hmem', hk1, hk2⟩
          cases cs? with
          | some c => simp [decodeNodeFields]
          | none =>
              cases hdx : decodeChildren v with
              | none => simp [decodeNodeFields, hdx]
              | some cs => simpa [decodeNodeFields, hdx] using ih (some cs) e? hrest
      | kend =>
          have hrest : ∃ kv ∈ rest, kv.1 ≠ PKey.kchildren ∧ kv.1 ≠ PKey.kend := by
            rcases List.mem_cons.mp hmem with heq | hmem'
            · rw [heq] at hk2
              exact absurd rfl hk2
            · exact ⟨kv, hmem', hk1, hk2⟩
          cases e? with
          | some b => simp [decodeNodeFields]
          | none =>
              cases v with
              | pbool b => simpa [decodeNodeFields] using ih cs? (some b) hrest
              | pnat m => simp [decodeNodeFields]
              | pmap es => simp [decodeNodeFields]
              | pobj fs => simp [decodeNodeFields]
      | kroot => simp [decodeNodeFields]
      | kcount => simp [decodeNodeFields]
      | kother tag => simp [decodeNodeFields]

lemma decodeNodeFields_dup : ∀ (fields : List (PKey × PVal))
    (cs? : Option (List (Nat × TrieNode Nat))) (e? : Option Bool),
    (2 ≤ countKey PKey.kchildren fields
      ∨ (1 ≤ countKey PKey.kchildren fields ∧ cs?.isSome = true)
      ∨ 2 ≤ countKey PKey.kend fields
      ∨ (1 ≤ countKey PKey.kend fields ∧ e?.isSome = true)) →
    decodeNodeFields fields cs? e? = none := by
  intro fields
  induction fields with
  | nil =>
      intro cs? e? h
      simp [countKey] at h
  | cons hd rest ih =>
      intro cs? e? h
      obtain ⟨k, v⟩ := hd
      cases k with
      | kchildren =>
          cases cs? with
          | some c => simp [decodeNodeFields]
          | none =>
              cases hdx : decodeChildren v with
              | none => simp [decodeNodeFields, hdx]
              | some cs =>
                  have hc : countKey PKey.kchildren ((PKey.kchildren, v) :: rest)
                      = countKey PKey.kchildren rest + 1 := by
                    simp [countKey, List.countP_cons]
                  have he : countKey PKey.kend ((PKey.kchildren, v) :: rest)
                      = countKey PKey.kend rest := by
                    simp [countKey, List.countP_cons]
                  rw [hc, he] at h
                  simp only [Option.isSome_none, Bool.false_eq_true, and_false,
                    false_or, or_false] at h
                  have h' : 2 ≤ countKey PKey.kchildren rest
                      ∨ (1 ≤ countKey PKey.kchildren rest
                          ∧ (some cs).isSome = true)
                      ∨ 2 ≤ countKey PKey.kend rest
                      ∨ (1 ≤ countKey PKey.kend rest ∧ e?.isSome = true) := by
                    rcases h with h1 | h3 | h4
                    · exact Or.inr (Or.inl ⟨by omega, rfl⟩)
                    · exact Or.inr (Or.inr (Or.inl h3))
                    · exact Or.inr (Or.inr (Or.inr h4))
                  simpa [decodeNodeFields, hdx] using ih (some cs) e? h'
      | kend =>
          cases e? with
          | some b => simp [decodeNodeFields]
          | none =>
              have hc : countKey PKey.kchildren ((PKey.kend, v) :: rest)
                  = countKey PKey.kchildren rest := by
                simp [countKey, List.countP_cons]
              have he : countKey PKey.kend ((PKey.kend, v) :: rest)
                  = countKey PKey.kend rest + 1 := by
                simp [countKey, List.countP_cons]
              rw [hc, he] at h
              simp only [Option.isSome_none, Bool.false_eq_true, and_false,
                false_or, or_false] at h
              have h' : 2 ≤ countKey PKey.kchildren rest
                  ∨ (1 ≤ countKey PKey.kchildren rest ∧ cs?.isSome = true)
                  ∨ 2 ≤ countKey PKey.kend rest
                  ∨ (1 ≤ countKey PKey.kend rest ∧ (some true).isSome = true) := by
                rcases h with h1 | h2 | h4
                · exact Or.inl h1
                · exact Or.inr (Or.inl h2)
                · exact Or.inr (Or.inr (Or.inr ⟨by omega, rfl⟩))
              cases v with
              | pbool b =>
                  have h'' : 2 ≤ countKey PKey.kchildren rest
                      ∨ (1 ≤ countKey PKey.kchildren rest ∧ cs?.isSome = true)
                      ∨ 2 ≤ countKey PKey.kend rest
                      ∨ (1 ≤ countKey PKey.kend rest ∧ (some b).isSome = true) := by
                    rcases h' with h1 | h2 | h3 | h4
                    · exact Or.inl h1
                    · exact Or.inr (Or.inl h2)
                    · exact Or.inr (Or.inr (Or.inl h3))
                    · exact Or.inr (Or.inr (Or.inr ⟨h4.1, rfl⟩))
                  simpa [decodeNodeFields] using ih cs? (some b) h''
              | pnat m => simp [decodeNodeFields]
              | pmap es => simp [decodeNodeFields]
              | pobj fs => simp [decodeNodeFields]
      | kroot => simp [decodeNodeFields]
      | kcount => simp [decodeNodeFields]
      | kother tag => simp [decodeNodeFields]

lemma decodeNodeFields_defaults : ∀ (fields : List (PKey × PVal))
    (cs? : Option (List (Nat × TrieNode Nat))) (e? : Option Bool)
    (n : TrieNode Nat), decodeNodeFields fields cs? e? = some n →
    (countKey PKey.kchildren fields = 0 → n.children = cs?.getD [])
    ∧ (countKey PKey.kend fields = 0 → n.end_of_value = e?.getD false) := by
  intro fields
  induction fields with
  | nil =>
      intro cs? e? n h
      rw [decodeNodeFields] at h
      cases h
      exact ⟨fun _ => rfl, fun _ => rfl⟩
  | cons hd rest ih =>
      intro cs? e? n h
      obtain ⟨k, v⟩ := hd
      cases k with
      | kchildren =>
          cases cs? with
          | some c => rw [decodeNodeFields] at h; cases h
          | none =>
              cases hdx : decodeChildren v with
              | none => rw [decodeNodeFields, hdx] at h; cases h
              | some cs =>
                  rw [decodeNodeFields, hdx] at h
                  constructor
                  · intro hcc
                    simp [countKey, List.countP_cons] at hcc
                  · intro hce
                    have hce' : countKey PKey.kend rest = 0 := by
                      simpa [countKey, List.countP_cons] using hce
                    exact (ih (some cs) e? n h).2 hce'
      | kend =>
          cases e? with
          | some b => rw [decodeNodeFields] at h; cases h
          | none =>
              cases v with
              | pbool b =>
                  rw [decodeNodeFields] at h
                  constructor
                  · intro hcc
                    have hcc' : countKey PKey.kchildren rest = 0 := by
                      simpa [countKey, List.countP_cons] using hcc
                    exact (ih cs? (some b) n h).1 hcc'
                  · intro hce
                    simp [countKey, List.countP_cons] at hce
              | pnat m => simp [decodeNodeFields] at h
              | pmap es => simp [decodeNodeFields] at h
              | pobj fs => simp [decodeNodeFields] at h
      | kroot => simp [decodeNodeFields] at h
      | kcount => simp [decodeNodeFields] at h
      | kother tag => simp [decodeNodeFields] at h

lemma decodeTrieFields_unknown : ∀ (fields : List (PKey × PVal))
    (root? : Option (TrieNode Nat)) (count? : Option Nat),
    (∃ kv ∈ fields, kv.1 ≠ PKey.kroot ∧ kv.1 ≠ PKey.kcount) →
    decodeTrieFields fields root? count? = none := by
  intro fields
  induction fields with
  | nil =>
      intro root? count? h
      simp at h
  | cons hd rest ih =>
      intro root? count? h
      obtain ⟨k, v⟩ := hd
      obtain ⟨kv, hmem, hk1, hk2⟩ := h
      cases k with
      | kroot =>
          have hrest : ∃ kv ∈ rest, kv.1 ≠ PKey.kroot ∧ kv.1 ≠ PKey.kcount := by
            rcases List.mem_cons.mp hmem with heq | hmem'
            · rw [heq] at hk1
              exact absurd rfl hk1
            · exact ⟨kv, hmem', hk1, hk2⟩
          cases root? with
          | some r => simp [decodeTrieFields]
          | none =>
              cases hdx : decodeNode v with
              | none => simp [decodeTrieFields, hdx]
              | some r => simpa [decodeTrieFields, hdx] using ih (some r) count? hrest
      | kcount =>
          have hrest : ∃ kv ∈ rest, kv.1 ≠ PKey.kroot ∧ kv.1 ≠ PKey.kcount := by
            rcases List.mem_cons.mp hmem with heq | hmem'
            · rw [heq] at hk2
              exact absurd rfl hk2
            · exact ⟨kv, hmem', hk1, hk2⟩
          cases count? with
          | some c => simp [decodeTrieFields]
          | none =>
              cases v with
              | pnat c => simpa [decodeTrieFields] using ih root? (some c) hrest
              | pbool b => simp [decodeTrieFields]
              | pmap es => simp [decodeTrieFields]
              | pobj fs => simp [decodeTrieFields]
      | kchildren => simp [decodeTrieFields]
      | kend => simp [decodeTrieFields]
      | kother tag => simp [decodeTrieFields]

lemma decodeTrieFields_dup : ∀ (fields : List (PKey × PVal))
    (root? : Option (TrieNode Nat)) (count? : Option Nat),
    (2 ≤ countKey PKey.kroot fields
      ∨ (1 ≤ countKey PKey.kroot fields ∧ root?.isSome = true)
      ∨ 2 ≤ countKey PKey.kcount fields
      ∨ (1 ≤ countKey PKey.kcount fields ∧ count?.isSome = true)) →
    decodeTrieFields fields root? count? = none := by
  intro fields
  induction fields with
  | nil =>
      intro root? count? h
      simp [countKey] at h
  | cons hd rest ih =>
      intro root? count? h
      obtain ⟨k, v⟩ := hd
      cases k with
      | kroot =>
          cases root? with
          | some r => simp [decodeTrieFields]
          | none =>
              cases hdx : decodeNode v with
              | none => simp [decodeTrieFields, hdx]
              | some r =>
                  have hc : countKey PKey.kroot ((PKey.kroot, v) :: rest)
                      = countKey PKey.kroot rest + 1 := by
                    simp [countKey, List.countP_cons]
                  have he : countKey PKey.kcount ((PKey.kroot, v) :: rest)
                      = countKey PKey.kcount rest := by
                    simp [countKey, List.countP_cons]
                  rw [hc, he] at h
                  simp only [Option.isSome_none, Bool.false_eq_true, and_false,
                    false_or, or_false] at h
                  have h' : 2 ≤ countKey PKey.kroot rest
                      ∨ (1 ≤ countKey PKey.kroot rest ∧ (some r).isSome = true)
                      ∨ 2 ≤ countKey PKey.kcount rest
                      ∨ (1 ≤ countKey PKey.kcount rest ∧ count?.isSome = true) := by
                    rcases h with h1 | h3 | h4
                    · exact Or.inr (Or.inl ⟨by omega, rfl⟩)
                    · exact Or.inr (Or.inr (Or.inl h3))
                    · exact Or.inr (Or.inr (Or.inr h4))
                  simpa [decodeTrieFields, hdx] using ih (some r) count? h'
      | kcount =>
          cases count? with
          | some c => simp [decodeTrieFields]
          | none =>
              have hc : countKey PKey.kroot ((PKey.kcount, v) :: rest)
                  = countKey PKey.kroot rest := by
                simp [countKey, List.countP_cons]
              have he : countKey PKey.kcount ((PKey.kcount, v) :: rest)
                  = countKey PKey.kcount rest + 1 := by
                simp [countKey, List.countP_cons]
              rw [hc, he] at h
              simp only [Option.isSome_none, Bool.false_eq_true, and_false,
                false_or, or_false] at h
              cases v with
              | pnat c =>
                  have h' : 2 ≤ countKey PKey.kroot rest
                      ∨ (1 ≤ countKey PKey.kroot rest ∧ root?.isSome = true)
                      ∨ 2 ≤ countKey PKey.kcount rest
                      ∨ (1 ≤ countKey PKey.kcount rest ∧ (some c).isSome = true) := by
                    rcases h with h1 | h2 | h4
                    · exact Or.inl h1
                    · exact Or.inr (Or.inl h2)
                    · exact Or.inr (Or.inr (Or.inr ⟨by omega, rfl⟩))
                  simpa [decodeTrieFields] using ih root? (some c) h'
              | pbool b => simp [decodeTrieFields]
              | pmap es => simp [decodeTrieFields]
              | pobj fs => simp [decodeTrieFields]
      | kchildren => simp [decodeTrieFields]
      | kend => simp [decodeTrieFields]
      | kother tag => simp [decodeTrieFields]

lemma decodeTrieFields_missing : ∀ (fields : List (PKey × PVal))
    (root? : Option (TrieNode Nat)) (count? : Option Nat),
    ((root?.isNone = true ∧ countKey PKey.kroot fields = 0)
      ∨ (count?.isNone = true ∧ countKey PKey.kcount fields = 0)) →
    decodeTrieFields fields root? count? = none := by
  intro fields
  induction fields with
  | nil =>
      intro root? count? h
      cases root? with
      | none => simp [decodeTrieFields]
      | some r =>
          cases count? with
          | none => simp [decodeTrieFields]
          | some c => simp at h
  | cons hd rest ih =>
      intro root? count? h
      obtain ⟨k, v⟩ := hd
      cases k with
      | kroot =>
          have hcnt : count?.isNone = true ∧ countKey PKey.kcount rest = 0 := by
            rcases h with ⟨_, hz⟩ | ⟨hn, hz⟩
            · simp [countKey, List.countP_cons] at hz
            · exact ⟨hn, by simpa [countKey, List.countP_cons] using hz⟩
          cases root? with
          | some r => simp [decodeTrieFields]
          | none =>
              cases hdx : decodeNode v with
              | none => simp [decodeTrieFields, hdx]
              | some r =>
                  simpa [decodeTrieFields, hdx] using
                    ih (some r) count? (Or.inr hcnt)
      | kcount =>
          have hrt : root?.isNone = true ∧ countKey PKey.kroot rest = 0 := by
            rcases h with ⟨hn, hz⟩ | ⟨_, hz⟩
            · exact ⟨hn, by simpa [countKey, List.countP_cons] using hz⟩
            · simp [countKey, List.countP_cons] at hz
          cases count? with
          | some c => simp [decodeTrieFields]
          | none =>
              cases v with
              | pnat c =>
                  simpa [decodeTrieFields] using ih root? (some c) (Or.inl hrt)
              | pbool b => simp [decodeTrieFields]
              | pmap es => simp [decodeTrieFields]
              | pobj fs => simp [decodeTrieFields]
      | kchildren => simp [decodeTrieFields]
      | kend => simp [decodeTrieFields]
      | kother tag => simp [decodeTrieFields]

/-- C9 (deserialization error handling): decoding a persisted node object
fails (`none`, modelling a serde decode error) whenever some field key is
neither `children` nor `end_of_value` (unknown field) or one of those two
keys occurs twice (duplicate field); a missing `children` field defaults
to the empty map and a missing `end_of_value` field to `false`.  Decoding
a persisted container object fails whenever some key is neither `root` nor
`count`, when one of them is duplicated, and when either is missing; and
no further validation happens: the container object whose root is a bare
terminal node (1 terminal node) but whose `count` field says 99 decodes
successfully to a trie with `count = 99`. -/
theorem spec_c9_decode_errors :
    (∀ fields : List (PKey × PVal),
        (∃ kv ∈ fields, kv.1 ≠ PKey.kchildren ∧ kv.1 ≠ PKey.kend) →
        decodeNode (.pobj fields) = none)
    ∧ (∀ fields : List (PKey × PVal),
        2 ≤ countKey PKey.kchildren fields ∨ 2 ≤ countKey PKey.kend fields →
        decodeNode (.pobj fields) = none)
    ∧ (∀ (fields : List (PKey × PVal)) (n : TrieNode Nat),
        decodeNode (.pobj fields) = some n →
        (countKey PKey.kchildren fields = 0 → n.children = [])
        ∧ (countKey PKey.kend fields = 0 → n.end_of_value = false))
    ∧ (∀ fields : List (PKey × PVal),
        (∃ kv ∈ fields, kv.1 ≠ PKey.kroot ∧ kv.1 ≠ PKey.kcount) →
        decodeTrie (.pobj fields) = none)
    ∧ (∀ fields : List (PKey × PVal),
        2 ≤ countKey PKey.kroot fields ∨ 2 ≤ countKey PKey.kcount fields →
        decodeTrie (.pobj fields) = none)
    ∧ (∀ fields : List (PKey × PVal),
        countKey PKey.kroot fields = 0 ∨ countKey PKey.kcount fields = 0 →
        decodeTrie (.pobj fields) = none)
    ∧ decodeTrie (.pobj [(.kroot, .pobj [(.kend, .pbool true)]), (.kcount, .pnat 99)])
        = some ⟨.mk [] true, 99⟩
    ∧ countTerminals (TrieNode.mk ([] : List (Nat × TrieNode Nat)) true) = 1 := by
  refine ⟨?_, ?_, ?_, ?_, ?_, ?_, ?_, ?_⟩
  · intro fields h
    simpa [decodeNode] using decodeNodeFields_unknown fields none none h
  · intro fields h
    have h' : 2 ≤ countKey PKey.kchildren fields
        ∨ (1 ≤ countKey PKey.kchildren fields ∧ (none : Option (List (Nat × TrieNode Nat))).isSome = true)
        ∨ 2 ≤ countKey PKey.kend fields
        ∨ (1 ≤ countKey PKey.kend fields ∧ (none : Option Bool).isSome = true) := by
      rcases h with h1 | h2
      · exact Or.inl h1
      · exact Or.inr (Or.inr (Or.inl h2))
    simpa [decodeNode] using decodeNodeFields_dup fields none none h'
  · intro fields n h
    rw [show decodeNode (.pobj fields) = decodeNodeFields fields none none from by
      simp [decodeNode]] at h
    have := decodeNodeFields_defaults fields none none n h
    simpa using this
  · intro fields h
    simpa [decodeTrie] using decodeTrieFields_unknown fields none none h
  · intro fields h
    have h' : 2 ≤ countKey PKey.kroot fields
        ∨ (1 ≤ countKey PKey.kroot fields ∧ (none : Option (TrieNode Nat)).isSome = true)
        ∨ 2 ≤ countKey PKey.kcount fields
        ∨ (1 ≤ countKey PKey.kcount fields ∧ (none : Option Nat).isSome = true) := by
      rcases h with h1 | h2
      · exact Or.inl h1
      · exact Or.inr (Or.inr (Or.inl h2))
    simpa [decodeTrie] using decodeTrieFields_dup fields none none h'
  · intro fields h
    have h' : ((none : Option (TrieNode Nat)).isNone = true
          ∧ countKey PKey.kroot fields = 0)
        ∨ ((none : Option Nat).isNone = true ∧ countKey PKey.kcount fields = 0) := by
      rcases h with h1 | h2
      · exact Or.inl ⟨rfl, h1⟩
      · exact Or.inr ⟨rfl, h2⟩
    simpa [decodeTrie] using decodeTrieFields_missing fields none none h'
  · simp [decodeTrie, decodeTrieFields, decodeNode, decodeNodeFields]
  · simp [countTerminals, countTerminalsList]

/-- Witness for C9: concrete instances of each error path — an unknown
node field, a duplicated `end_of_value` field, defaulting on a node with
only `end_of_value`, an unknown container field, and a container object
with both required fields missing. -/
theorem spec_c9_decode_errors_witness :
    decodeNode (.pobj [(.kother 0, .pnat 0)]) = none
    ∧ decodeNode (.pobj [(.kend, .pbool true), (.kend, .pbool false)]) = none
    ∧ (TrieNode.mk ([] : List (Nat × TrieNode Nat)) true).children = []
    ∧ decodeTrie (.pobj [(.kother 1, .pnat 0)]) = none
    ∧ decodeTrie (.pobj []) = none := by
  refine ⟨?_, ?_, ?_, ?_, ?_⟩
  · exact spec_c9_decode_errors.1 _
      ⟨(.kother 0, .pnat 0), by simp, by decide, by decide⟩
  · exact spec_c9_decode_errors.2.1 _ (Or.inr (by decide))
  · exact (spec_c9_decode_errors.2.2.1 [(.kend, .pbool true)] (.mk [] true)
      (by simp [decodeNode, decodeNodeFields])).1 (by decide)
  · exact spec_c9_decode_errors.2.2.2.1 _
      ⟨(.kother 1, .pnat 0), by simp, by decide, by decide⟩
  · exact spec_c9_decode_errors.2.2.2.2.2.1 [] (Or.inl (by decide))
